import Mathlib

/-!
Verification of `src/scripts/zap_gradle.py` (the "panic-button" deep-clean
utility).  The script is shallowly embedded: filesystem paths are modelled as
canonical absolute paths (lists of components, each component a list of
characters, mirroring the string produced by `Path.resolve()`), the filesystem
as an association list from paths to entry kinds, and the partial-failure
behaviour of `shutil.rmtree` / `Path.unlink` / `subprocess.run` through
explicit oracles.  Every definition follows the corresponding Python function;
theorems at the end settle the frozen claims.
-/

namespace ZapGradle

/-! ### Canonical paths

`Path.resolve()` yields an absolute path whose string form is `"/"` for the
filesystem root and `"/c1/c2/…/cn"` otherwise, where no component is empty or
contains `'/'`.  We model a resolved path as its list of components and
recover the string (as a list of characters) with `pathStr`. -/

abbrev Name := List Char
abbrev CanonPath := List Name

/-- A component of a canonically resolved path: nonempty, no separator. -/
def wfName (n : Name) : Prop := n ≠ [] ∧ '/' ∉ n

instance (n : Name) : Decidable (wfName n) := by unfold wfName; infer_instance

/-- All components of the path are wellformed. -/
def WfP (p : CanonPath) : Prop := ∀ n ∈ p, wfName n

instance (p : CanonPath) : Decidable (WfP p) := by unfold WfP; infer_instance

/-- The character string of a nonempty canonical path: `/c1/c2/…/cn`. -/
def compStr (p : CanonPath) : List Char := (p.map (fun n => '/' :: n)).flatten

/-- `str(path)` for a resolved `pathlib.Path`: `"/"` for the root, otherwise
the separator-joined components. -/
def pathStr (p : CanonPath) : List Char := if p.isEmpty then ['/'] else compStr p

@[simp] theorem compStr_nil : compStr [] = [] := rfl

theorem compStr_cons (a : Name) (l : CanonPath) :
    compStr (a :: l) = '/' :: (a ++ compStr l) := by
  simp [compStr]

theorem pathStr_nil : pathStr [] = ['/'] := rfl

theorem pathStr_cons (a : Name) (l : CanonPath) :
    pathStr (a :: l) = '/' :: (a ++ compStr l) := by
  simp [pathStr, compStr_cons]

/-- `confirm_under_home` (zap_gradle.py lines 36–42): resolve both paths and
test `str(path).startswith(str(home) + os.sep)`; any resolution failure
(modelled by `none`) yields `false`. -/
def confirm_under_home (path home : Option CanonPath) : Bool :=
  match path, home with
  | some p, some h => (pathStr h ++ ['/']).isPrefixOf (pathStr p)
  | _, _ => false

/-! ### Characterizing the string-prefix test -/

/-- Alignment of separator-delimited components: a string `a ++ '/' :: s` is a
prefix of `b ++ t` (with `a`, `b` separator-free and `t` empty or starting
with a separator) exactly when `a = b` and `'/' :: s` is a prefix of `t`. -/
theorem align (a : Name) (s : List Char) :
    ∀ (b : Name) (t : List Char), '/' ∉ a → '/' ∉ b →
    (t = [] ∨ ∃ u, t = '/' :: u) →
    ((a ++ '/' :: s <+: b ++ t) ↔ (a = b ∧ '/' :: s <+: t)) := by
  induction a with
  | nil =>
    intro b t _ hb ht
    cases b with
    | nil => simp
    | cons c b' =>
      simp only [List.nil_append, List.cons_append, List.cons_prefix_cons]
      constructor
      · rintro ⟨rfl, -⟩
        exact absurd (List.mem_cons_self _ _) hb
      · rintro ⟨h, -⟩
        exact absurd h (by simp)
  | cons c a' ih =>
    intro b t ha hb ht
    cases b with
    | nil =>
      simp only [List.cons_append, List.nil_append]
      constructor
      · intro h
        rcases ht with rfl | ⟨u, rfl⟩
        · exact absurd (List.eq_nil_of_prefix_nil h) (by simp)
        · rw [List.cons_prefix_cons] at h
          exact absurd (h.1 ▸ List.mem_cons_self c a') ha
      · rintro ⟨h, -⟩
        exact absurd h (by simp)
    | cons d b' =>
      simp only [List.cons_append, List.cons_prefix_cons]
      have ha' : '/' ∉ a' := fun h => ha (List.mem_cons_of_mem _ h)
      have hb' : '/' ∉ b' := fun h => hb (List.mem_cons_of_mem _ h)
      rw [ih b' t ha' hb' ht]
      constructor
      · rintro ⟨rfl, rfl, h⟩
        exact ⟨rfl, h⟩
      · rintro ⟨h, hs⟩
        rw [List.cons_eq_cons] at h
        exact ⟨h.1, h.2, hs⟩

theorem compStr_shape (p : CanonPath) (hp : p ≠ []) :
    ∃ u, compStr p = '/' :: u := by
  cases p with
  | nil => exact absurd rfl hp
  | cons a l => exact ⟨a ++ compStr l, compStr_cons a l⟩

/-- Core characterization: for nonempty wellformed canonical paths,
`compStr h ++ "/"` is a string-prefix of `compStr p` exactly when `h` is a
strict component-wise prefix of `p`. -/
theorem compStr_prefix_iff (h : CanonPath) :
    ∀ (p : CanonPath), h ≠ [] → p ≠ [] → WfP h → WfP p →
    ((compStr h ++ ['/'] <+: compStr p) ↔ ∃ r, r ≠ [] ∧ p = h ++ r) := by
  induction h with
  | nil => intro p hh; exact absurd rfl hh
  | cons a h' ih =>
    intro p _ hp wh wp
    cases p with
    | nil => exact absurd rfl hp
    | cons b p' =>
      have wa : wfName a := wh a (List.mem_cons_self _ _)
      have wb : wfName b := wp b (List.mem_cons_self _ _)
      have wh' : WfP h' := fun n hn => wh n (List.mem_cons_of_mem _ hn)
      have wp' : WfP p' := fun n hn => wp n (List.mem_cons_of_mem _ hn)
      rw [compStr_cons, compStr_cons]
      -- reassociate:  ('/' :: (a ++ compStr h')) ++ ['/'] = '/' :: (a ++ (compStr h' ++ ['/']))
      have e1 : ('/' :: (a ++ compStr h')) ++ ['/'] =
          '/' :: (a ++ (compStr h' ++ ['/'])) := by simp
      rw [e1]
      simp only [List.cons_prefix_cons, eq_self_iff_true, true_and]
      have hside : compStr h' ++ ['/'] = '/' :: (compStr h' ++ ['/']).tail := by
        cases hcase : h' with
        | nil => simp
        | cons x l => rw [compStr_cons]; simp
      have tside : compStr p' = [] ∨ ∃ u, compStr p' = '/' :: u := by
        cases hcase : p' with
        | nil => exact Or.inl rfl
        | cons x l => exact Or.inr ⟨x ++ compStr l, compStr_cons x l⟩
      rw [hside, align a _ b (compStr p') wa.2 wb.2 tside, ← hside]
      constructor
      · rintro ⟨rfl, hpre⟩
        cases hcase : h' with
        | nil =>
          subst hcase
          have hne : p' ≠ [] := by
            intro hnil
            subst hnil
            simp only [compStr_nil, List.nil_append] at hpre
            exact absurd (List.eq_nil_of_prefix_nil hpre) (by simp)
          exact ⟨p', hne, by simp⟩
        | cons x l =>
          subst hcase
          have hp'ne : p' ≠ [] := by
            intro hnil
            subst hnil
            have := hpre.length_le
            simp [compStr_cons] at this
          obtain ⟨r, hr, hrp⟩ := (ih p' (by simp) hp'ne wh' wp').mp hpre
          exact ⟨r, hr, by rw [hrp]; simp⟩
      · rintro ⟨r, hr, hrp⟩
        rw [List.cons_append, List.cons_eq_cons] at hrp
        obtain ⟨rfl, hrp⟩ := hrp
        refine ⟨rfl, ?_⟩
        cases hcase : h' with
        | nil =>
          subst hcase
          simp only [List.nil_append] at hrp
          subst hrp
          obtain ⟨u, hu⟩ := compStr_shape p' hr
          rw [hu]
          simp
        | cons x l =>
          subst hcase
          have hp'ne : p' ≠ [] := by rw [hrp]; simp
          exact (ih p' (by simp) hp'ne wh' wp').mpr ⟨r, hr, hrp⟩

/-- Full characterization of the guard on resolvable wellformed paths:
it accepts exactly the strict descendants of a non-root home. -/
theorem confirm_iff (p h : CanonPath) (wp : WfP p) (wh : WfP h) :
    confirm_under_home (some p) (some h) = true ↔
      h ≠ [] ∧ ∃ r, r ≠ [] ∧ p = h ++ r := by
  unfold confirm_under_home
  rw [List.isPrefixOf_iff_prefix]
  cases hh : h with
  | nil =>
    simp only [pathStr_nil, ne_eq, not_true_eq_false, false_and, iff_false]
    intro hpre
    cases hp : p with
    | nil =>
      subst hp
      rw [pathStr_nil] at hpre
      have := hpre.length_le
      simp at this
    | cons b p' =>
      subst hp
      rw [pathStr_cons] at hpre
      have : (['/'] : List Char) <+: b ++ compStr p' := by
        have := (List.cons_prefix_cons).mp hpre
        exact this.2
      have wb : wfName b := wp b (List.mem_cons_self _ _)
      cases hb : b with
      | nil => exact absurd hb wb.1
      | cons c b' =>
        subst hb
        simp only [List.cons_append] at this
        rw [List.cons_prefix_cons] at this
        exact absurd (this.1 ▸ List.mem_cons_self c b') wb.2
  | cons a h' =>
    subst hh
    simp only [ne_eq, reduceCtorEq, not_false_eq_true, true_and]
    cases hp : p with
    | nil =>
      subst hp
      simp only [pathStr_nil, pathStr_cons]
      constructor
      · intro hpre
        have := hpre.length_le
        simp at this
      · rintro ⟨r, hr, hrp⟩
        exact absurd hrp (by simp)
    | cons b p' =>
      subst hp
      have e1 : pathStr (a :: h') = compStr (a :: h') := by simp [pathStr]
      have e2 : pathStr (b :: p') = compStr (b :: p') := by simp [pathStr]
      rw [e1, e2]
      exact compStr_prefix_iff (a :: h') (b :: p') (by simp) (by simp) wh wp

/-! ### Project tree scanner

`find_project_dirs_to_remove` (zap_gradle.py lines 72–83) walks the project
tree top-down with `os.walk`, records `build` / `.gradle` child directories,
and prunes descent into a fixed set of directory names (which includes the
two artifact names).  `DirTree` is the directory structure `os.walk`
observes: each node lists its child directories in enumeration order. -/

def nm (s : String) : Name := s.data

inductive DirTree where
  | node : List (Name × DirTree) → DirTree
deriving Inhabited

/-- The prune set built inside the loop (line 76). -/
def pruneNames : List Name :=
  [nm ".git", nm ".idea", nm ".vscode", nm ".venv", nm "venv",
   nm "node_modules", nm "build", nm ".gradle"]

/-- The artifact set collected at each level (line 79). -/
def artifactNames : List Name := [nm "build", nm ".gradle"]

/-- One level's contribution: `for d in list(dirs): if d in {"build",".gradle"}:
targets.append(Path(cur) / d)`. -/
def collectArtifacts (cur : CanonPath) (children : List (Name × DirTree)) :
    List CanonPath :=
  children.filterMap (fun nt =>
    if nt.1 ∈ artifactNames then some (cur ++ [nt.1]) else none)

mutual

/-- The walk visiting directory `cur` with observed subtree `t`: record this
level's artifact children, then descend (in order) into the children that
survive `dirs[:] = [d for d in dirs if d not in prune]`. -/
def walkCollect (cur : CanonPath) : DirTree → List CanonPath
  | .node children => collectArtifacts cur children ++ walkChildren cur children

def walkChildren (cur : CanonPath) : List (Name × DirTree) → List CanonPath
  | [] => []
  | (n, t) :: rest =>
      (if n ∈ pruneNames then [] else walkCollect (cur ++ [n]) t) ++
      walkChildren cur rest

end

def find_project_dirs_to_remove (root : CanonPath) (t : DirTree) :
    List CanonPath :=
  walkCollect root t

/-- Reachability in the pruned walk: `Reach r t cur sub` holds when the walk
started at `r` (tree `t`) visits directory `cur` whose observed subtree is
`sub`; every component stepped through is outside the prune set.  The root is
visited unconditionally. -/
inductive Reach (r : CanonPath) (t : DirTree) : CanonPath → DirTree → Prop where
  | refl : Reach r t r t
  | step {cur children n c} : Reach r t cur (.node children) →
      (n, c) ∈ children → n ∉ pruneNames → Reach r t (cur ++ [n]) c

theorem reach_shape {r : CanonPath} {t : DirTree} {cur : CanonPath}
    {sub : DirTree} (h : Reach r t cur sub) :
    ∃ q, cur = r ++ q ∧ ∀ n ∈ q, n ∉ pruneNames := by
  induction h with
  | refl => exact ⟨[], by simp⟩
  | step hre hmem hn ih =>
    rename_i cur1 children1 n1 c1
    obtain ⟨q, rfl, hq⟩ := ih
    refine ⟨q ++ [n1], by simp, ?_⟩
    intro m hm
    rcases List.mem_append.mp hm with hm | hm
    · exact hq m hm
    · rw [List.mem_singleton] at hm
      exact hm ▸ hn

theorem reach_trans {r : CanonPath} {t : DirTree} {cur : CanonPath}
    {mid : DirTree} (h : Reach r t cur mid) {cur2 sub2}
    (h2 : Reach cur mid cur2 sub2) : Reach r t cur2 sub2 := by
  induction h2 with
  | refl => exact h
  | step _ hmem hn ih => exact Reach.step ih hmem hn

/-- A recorded target, phrased against `Reach`. -/
def IsTarget (r : CanonPath) (t : DirTree) (p : CanonPath) : Prop :=
  ∃ cur children n c, Reach r t cur (.node children) ∧ (n, c) ∈ children ∧
    n ∈ artifactNames ∧ p = cur ++ [n]

theorem mem_walkChildren {cur : CanonPath} {children : List (Name × DirTree)}
    {p : CanonPath} :
    p ∈ walkChildren cur children ↔
      ∃ n c, (n, c) ∈ children ∧ n ∉ pruneNames ∧ p ∈ walkCollect (cur ++ [n]) c := by
  induction children with
  | nil => simp [walkChildren]
  | cons nt rest ih =>
    obtain ⟨n, c⟩ := nt
    rw [walkChildren, List.mem_append, ih]
    constructor
    · rintro (hp | ⟨m, d, hmem, hm, hp⟩)
      · by_cases hn : n ∈ pruneNames
        · rw [if_pos hn] at hp
          simp at hp
        · rw [if_neg hn] at hp
          exact ⟨n, c, List.mem_cons_self _ _, hn, hp⟩
      · exact ⟨m, d, List.mem_cons_of_mem _ hmem, hm, hp⟩
    · rintro ⟨m, d, hmem, hm, hp⟩
      rcases List.mem_cons.mp hmem with heq | hmem
      · rw [Prod.mk.injEq] at heq
        obtain ⟨rfl, rfl⟩ := heq
        exact Or.inl (by rw [if_neg hm]; exact hp)
      · exact Or.inr ⟨m, d, hmem, hm, hp⟩

/-- First-step inversion for `Reach`: a reachable directory is either the
start itself or reachable from one of the start's non-pruned children. -/
theorem reach_first_step {r : CanonPath} {t : DirTree} {cur2 : CanonPath}
    {sub : DirTree} (h : Reach r t cur2 sub) :
    (cur2 = r ∧ sub = t) ∨
      ∃ ch n c, t = DirTree.node ch ∧ (n, c) ∈ ch ∧ n ∉ pruneNames ∧
        Reach (r ++ [n]) c cur2 sub := by
  induction h with
  | refl => exact Or.inl ⟨rfl, rfl⟩
  | step h hmem hn ih =>
    rcases ih with ⟨rfl, rfl⟩ | ⟨ch, m, d, rfl, hmem2, hm, hr⟩
    · exact Or.inr ⟨_, _, _, rfl, hmem, hn, Reach.refl⟩
    · exact Or.inr ⟨ch, m, d, rfl, hmem2, hm, Reach.step hr hmem hn⟩

theorem mem_walkCollect_bounded :
    ∀ (k : Nat) (t : DirTree), sizeOf t ≤ k → ∀ (cur p : CanonPath),
      (p ∈ walkCollect cur t ↔ IsTarget cur t p) := by
  intro k
  induction k with
  | zero =>
    intro t hk
    obtain ⟨children⟩ := t
    simp at hk
  | succ k ih =>
    rintro ⟨children⟩ hk cur p
    rw [walkCollect, List.mem_append, mem_walkChildren]
    have hsub : ∀ n c, (n, c) ∈ children → sizeOf c ≤ k := by
      intro n c hmem
      have h1 := List.sizeOf_lt_of_mem hmem
      have h2 : sizeOf (DirTree.node children) = 1 + sizeOf children := by
        simp
      simp only [Prod.mk.sizeOf_spec] at h1
      omega
    constructor
    · rintro (hp | ⟨n, c, hmem, hn, hp⟩)
      · unfold collectArtifacts at hp
        rw [List.mem_filterMap] at hp
        obtain ⟨⟨n, c⟩, hmem, hif⟩ := hp
        by_cases ha : n ∈ artifactNames
        · rw [if_pos ha, Option.some_inj] at hif
          exact ⟨cur, children, n, c, Reach.refl, hmem, ha, hif.symm⟩
        · rw [if_neg ha] at hif
          exact absurd hif (by simp)
      · obtain ⟨cur2, ch2, m, d, hreach, hmem2, hm, rfl⟩ :=
          (ih c (hsub n c hmem) (cur ++ [n]) p).mp hp
        exact ⟨cur2, ch2, m, d,
          reach_trans (Reach.step Reach.refl hmem hn) hreach, hmem2, hm, rfl⟩
    · rintro ⟨cur2, ch2, m, d, hreach, hmem2, hm, rfl⟩
      rcases reach_first_step hreach with ⟨rfl, heq⟩ | ⟨ch, n, c, heq, hmem, hn, hr⟩
      · injection heq with h
        subst h
        refine Or.inl ?_
        unfold collectArtifacts
        rw [List.mem_filterMap]
        exact ⟨(m, d), hmem2, by rw [if_pos hm]⟩
      · injection heq with h
        subst h
        refine Or.inr ⟨n, c, hmem, hn, ?_⟩
        exact (ih c (hsub n c hmem) (cur ++ [n]) _).mpr
          ⟨cur2, ch2, m, d, hr, hmem2, hm, rfl⟩

/-- The scanner returns exactly the recorded artifact children of directories
reachable through non-pruned components. -/
theorem mem_find_project_dirs {root : CanonPath} {t : DirTree} {p : CanonPath} :
    p ∈ find_project_dirs_to_remove root t ↔ IsTarget root t p :=
  mem_walkCollect_bounded (sizeOf t) t (Nat.le_refl _) root p

/-! ### Filesystem and effect model

The filesystem is an association list from canonical paths to entry kinds.
Partial failures of the underlying OS calls are injected through oracles:
`stuck` marks entries `shutil.rmtree(…, ignore_errors=True)` silently fails
to delete, `unlink` gives the exception (if any) raised by `Path.unlink()`. -/

inductive EKind where
  | file | dir | symlink
deriving DecidableEq, Inhabited

abbrev FS := List (CanonPath × EKind)

def fsKind (fs : FS) (p : CanonPath) : Option EKind :=
  (fs.find? (fun e => e.1 == p)).map (fun e => e.2)

/-- `path.exists()`. -/
def fsHas (fs : FS) (p : CanonPath) : Bool := (fsKind fs p).isSome

/-- `path.is_dir()` for a non-symlink directory entry. -/
def fsIsDir (fs : FS) (p : CanonPath) : Bool := fsKind fs p == some .dir

/-- `path.is_symlink()`. -/
def fsIsSymlink (fs : FS) (p : CanonPath) : Bool := fsKind fs p == some .symlink

inductive UnlinkErr where
  | isADirectory
  | other (code : Nat)
deriving DecidableEq

structure RmOracle where
  stuck : CanonPath → Bool
  unlink : CanonPath → Option UnlinkErr

/-- The benign oracle: no filesystem call fails. -/
def noFail : RmOracle := ⟨fun _ => false, fun _ => none⟩

/-- `shutil.rmtree(p, ignore_errors=True)`: best-effort removal of `p` and
everything below it; an entry survives only when it, or something below it
(which a directory cannot be removed without), is stuck.  Never raises. -/
def rmtree (fs : FS) (p : CanonPath) (stuck : CanonPath → Bool) : FS :=
  fs.filter (fun e =>
    !(p.isPrefixOf e.1) || fs.any (fun e2 => e.1.isPrefixOf e2.1 && stuck e2.1))

/-- `path.unlink()` when it succeeds: remove exactly the entry at `p`. -/
def fsErase (fs : FS) (p : CanonPath) : FS := fs.filter (fun e => !(e.1 == p))

/-- Structured stand-ins for the script's `print` lines. -/
inductive Cmd where
  | gradlewStop | gradleStop | gradlewClean
deriving DecidableEq

inductive Msg where
  | banner
  | dryRunCmd (c : Cmd)
  | runCmdV (c : Cmd)
  | warnCmdFailed (c : Cmd)
  | warnNoGradle
  | projectHeader
  | dryRunRm (p : CanonPath)
  | removedV (p : CanonPath)
  | warnRmFailed (p : CanonPath) (code : Nat)
  | safetySkipUserTier (guh home : CanonPath)
  | userTierHeader
  | aggressiveHeader
  | konanHeader
  | safetyKonan
  | zapComplete
deriving DecidableEq

/-- Observable result of one `safe_rm` call (zap_gradle.py lines 45–62): the
function itself returns `None`; this is the outcome its control flow selects. -/
inductive Outcome where
  | removed | skippedMissing | failed | wouldRemove
deriving DecidableEq

/-- The verbose `removed` print of `safe_rm` (line 60). -/
def vmsgOf (verbose : Bool) (p : CanonPath) : List Msg :=
  if verbose then [Msg.removedV p] else []

/-- The body of `safe_rm`'s `try:` block (lines 51–60).  `Except` carries an
exception escaping the block; only a non-`IsADirectoryError` failure of
`unlink` does (`rmtree` is called with `ignore_errors=True` and the inner
`except IsADirectoryError` falls back to `rmtree`). -/
def safe_rm_try (fs : FS) (p : CanonPath) (verbose : Bool) (F : RmOracle) :
    Except Nat (FS × List Msg) :=
  if fsIsDir fs p && !(fsIsSymlink fs p) then
    Except.ok (rmtree fs p F.stuck, vmsgOf verbose p)
  else
    match F.unlink p with
    | none => Except.ok (fsErase fs p, vmsgOf verbose p)
    | some UnlinkErr.isADirectory => Except.ok (rmtree fs p F.stuck, vmsgOf verbose p)
    | some (UnlinkErr.other code) => Except.error code

/-- `safe_rm(path, dry_run, verbose)`: missing target is a silent no-op;
dry-run only prints; otherwise run the `try:` block and convert any escaping
exception into a warning (lines 61–62). -/
def safe_rm (fs : FS) (p : CanonPath) (dry verbose : Bool) (F : RmOracle) :
    FS × List Msg × Outcome :=
  if !(fsHas fs p) then (fs, [], Outcome.skippedMissing)
  else if dry then (fs, [Msg.dryRunRm p], Outcome.wouldRemove)
  else
    match safe_rm_try fs p verbose F with
    | Except.ok (fs2, m) => (fs2, m, Outcome.removed)
    | Except.error code => (fs, [Msg.warnRmFailed p code], Outcome.failed)

/-- Spawn oracle for `subprocess.run`: `none` models a failure to even start
the process (the `except` path), `some (fs2, rc)` a process that ran against
the filesystem and exited with status `rc`. -/
abbrev SpawnO := Cmd → FS → Option (FS × Int)

/-- `runCmd(cmd, cwd, dry_run, verbose)` (zap_gradle.py lines 22–33). -/
def runCmd (fs : FS) (c : Cmd) (dry verbose : Bool) (S : SpawnO) :
    FS × List Msg × Int :=
  if dry then (fs, [Msg.dryRunCmd c], 0)
  else
    let vmsg : List Msg := if verbose then [Msg.runCmdV c] else []
    match S c fs with
    | some (fs2, rc) => (fs2, vmsg, rc)
    | none => (fs, vmsg ++ [Msg.warnCmdFailed c], 1)

/-! ### Glob patterns

Only the shapes the script uses are needed: literal components and
components of the form `prefix*`. -/

inductive PatComp where
  | lit (n : Name)
  | star (pre : Name)
deriving DecidableEq

abbrev Pattern := List PatComp

def matchComp : PatComp → Name → Bool
  | PatComp.lit n, m => n == m
  | PatComp.star pre, m => pre.isPrefixOf m

def matchPat : Pattern → List Name → Bool
  | [], [] => true
  | pc :: ps, n :: ns => matchComp pc n && matchPat ps ns
  | _, _ => false

/-- `glob.glob(str(base / pat))`: every existing path matching the pattern
rooted at `base` (deterministic: filesystem enumeration order). -/
def globMatches (fs : FS) (base : CanonPath) (pat : Pattern) : List CanonPath :=
  fs.filterMap (fun e =>
    if base.isPrefixOf e.1 && matchPat pat (e.1.drop base.length) then
      some e.1
    else none)

structure RmRes where
  fs : FS
  msgs : List Msg

/-- The inner loop of `glob_and_remove` and the orchestrator's `for` loops:
`safe_rm` over a list of paths in order. -/
def rmSeq (fs : FS) (ps : List CanonPath) (dry verbose : Bool) (F : RmOracle) :
    RmRes :=
  match ps with
  | [] => ⟨fs, []⟩
  | p :: rest =>
    let r := safe_rm fs p dry verbose F
    let rr := rmSeq r.1 rest dry verbose F
    ⟨rr.fs, r.2.1 ++ rr.msgs⟩

structure GlobRes where
  fs : FS
  msgs : List Msg
  hits : List CanonPath

/-- `glob_and_remove(base, patterns, …)` (lines 65–69): for each pattern in
order, enumerate the current matches and `safe_rm` each.  `hits` records the
paths handed to `safe_rm`. -/
def glob_and_remove (fs : FS) (base : CanonPath) (pats : List Pattern)
    (dry verbose : Bool) (F : RmOracle) : GlobRes :=
  match pats with
  | [] => ⟨fs, [], []⟩
  | pat :: rest =>
    let hits := globMatches fs base pat
    let r := rmSeq fs hits dry verbose F
    let g := glob_and_remove r.fs base rest dry verbose F
    ⟨g.fs, r.msgs ++ g.msgs, hits ++ g.hits⟩

/-! ### The orchestrator -/

/-- The run configuration after argument parsing (zap_gradle.py lines
136–144), with every path already in resolved canonical form. -/
structure Config where
  root : CanonPath
  home : CanonPath
  gradlew : CanonPath
  gradleOnPath : Bool
  gradle_user_home : CanonPath
  xdg_cache_home : CanonPath
  dry_run : Bool
  aggressive : Bool
  include_konan : Bool
  verbose : Bool

/-- Call-site tags for the orchestrator's `safe_rm` invocations. -/
inductive Step where
  | s3 | s4sub | s4glob | s4kotlin | s4xdg | s5 | s6
deriving DecidableEq

structure ZRes where
  fs : FS
  msgs : List Msg
  calls : List (Step × CanonPath)

/-- The safe glob patterns of step 4: `caches/build-cache-*`, `vcs-*`. -/
def safePatterns : List Pattern :=
  [[PatComp.lit (nm "caches"), PatComp.star (nm "build-cache-")],
   [PatComp.star (nm "vcs-")]]

/-- The aggressive glob patterns of step 5 (lines 197–202). -/
def aggPatterns : List Pattern :=
  [[PatComp.lit (nm "caches"), PatComp.lit (nm "modules-2")],
   [PatComp.lit (nm "caches"), PatComp.star (nm "jars-")],
   [PatComp.lit (nm "caches"), PatComp.star (nm "transforms-")],
   [PatComp.lit (nm "wrapper"), PatComp.lit (nm "dists")]]

/-- `caches_dir.glob("*")` filtered by `is_dir()` (lines 185–186): names of
the immediate child directories of `base`. -/
def dirChildren (fs : FS) (base : CanonPath) : List Name :=
  fs.filterMap (fun e =>
    match e.1.drop base.length with
    | [n] =>
        if base.isPrefixOf e.1 && (e.2 == EKind.dir) then some n else none
    | _ => none)

/-- Steps 1–2 (lines 154–164): stop daemons, clean the shared build cache. -/
def step12 (cfg : Config) (fs : FS) (S : SpawnO) : ZRes :=
  let r1 :=
    if fsHas fs cfg.gradlew then
      runCmd fs Cmd.gradlewStop cfg.dry_run cfg.verbose S
    else if cfg.gradleOnPath then
      runCmd fs Cmd.gradleStop cfg.dry_run cfg.verbose S
    else (fs, [Msg.warnNoGradle], 0)
  if fsHas r1.1 cfg.gradlew then
    let r2 := runCmd r1.1 Cmd.gradlewClean cfg.dry_run cfg.verbose S
    ⟨r2.1, r1.2.1 ++ r2.2.1, []⟩
  else ⟨r1.1, r1.2.1, []⟩

/-- Step 3 (lines 166–169): remove every scanner target. -/
def step3 (cfg : Config) (t : DirTree) (fs : FS) (F : RmOracle) : ZRes :=
  let targets := find_project_dirs_to_remove cfg.root t
  let r := rmSeq fs targets cfg.dry_run cfg.verbose F
  ⟨r.fs, Msg.projectHeader :: r.msgs, targets.map (fun p => (Step.s3, p))⟩

/-- Steps 4–5 (lines 171–202): the user-level prune, gated as a whole by the
Safety Guard, with the aggressive tier nested in the guarded branch. -/
def step45 (cfg : Config) (fs : FS) (F : RmOracle) : ZRes :=
  let guh := cfg.gradle_user_home
  if !(confirm_under_home (some guh) (some cfg.home)) then
    ⟨fs, [Msg.safetySkipUserTier guh cfg.home], []⟩
  else
    let subs := [guh ++ [nm "daemon"], guh ++ [nm "notifications"]]
    let a := rmSeq fs subs cfg.dry_run cfg.verbose F
    let g := glob_and_remove a.fs guh safePatterns cfg.dry_run cfg.verbose F
    let caches := guh ++ [nm "caches"]
    let kpaths :=
      if fsHas g.fs caches then
        (dirChildren g.fs caches).map (fun n => caches ++ [n, nm "kotlin"])
      else []
    let k := rmSeq g.fs kpaths cfg.dry_run cfg.verbose F
    let xdgg := cfg.xdg_cache_home ++ [nm "gradle"]
    let xcalls := if fsHas k.fs xdgg then [xdgg] else []
    let x := rmSeq k.fs xcalls cfg.dry_run cfg.verbose F
    let baseCalls :=
      subs.map (fun p => (Step.s4sub, p)) ++
      g.hits.map (fun p => (Step.s4glob, p)) ++
      kpaths.map (fun p => (Step.s4kotlin, p)) ++
      xcalls.map (fun p => (Step.s4xdg, p))
    let baseMsgs := Msg.userTierHeader :: (a.msgs ++ g.msgs ++ k.msgs ++ x.msgs)
    if cfg.aggressive then
      let ag := glob_and_remove x.fs guh aggPatterns cfg.dry_run cfg.verbose F
      ⟨ag.fs, baseMsgs ++ Msg.aggressiveHeader :: ag.msgs,
        baseCalls ++ ag.hits.map (fun p => (Step.s5, p))⟩
    else ⟨x.fs, baseMsgs, baseCalls⟩

/-- Step 6 (lines 204–211): optional Kotlin/Native toolchain removal, guarded
against home. -/
def step6 (cfg : Config) (fs : FS) (F : RmOracle) : ZRes :=
  if cfg.include_konan then
    let konan := cfg.home ++ [nm ".konan"]
    if confirm_under_home (some konan) (some cfg.home) then
      let r := safe_rm fs konan cfg.dry_run cfg.verbose F
      ⟨r.1, Msg.konanHeader :: r.2.1, [(Step.s6, konan)]⟩
    else ⟨fs, [Msg.safetyKonan], []⟩
  else ⟨fs, [], []⟩

/-- `main` (lines 126–214) after argument parsing: the tier sequence.
`t` is the directory structure `os.walk` observes under the project root. -/
def zap_main (cfg : Config) (fs : FS) (t : DirTree) (F : RmOracle)
    (S : SpawnO) : ZRes :=
  let r1 := step12 cfg fs S
  let r3 := step3 cfg t r1.fs F
  let r45 := step45 cfg r3.fs F
  let r6 := step6 cfg r45.fs F
  ⟨r6.fs,
   Msg.banner :: (r1.msgs ++ r3.msgs ++ r45.msgs ++ r6.msgs) ++ [Msg.zapComplete],
   r1.calls ++ r3.calls ++ r45.calls ++ r6.calls⟩

/-- `main` always returns 0 once parsing succeeds (line 214). -/
def zap_exit (_ : Config) : Int := 0

/-! ### Infrastructure lemmas -/

/-- Entry-wise containment between filesystems: removal only shrinks. -/
def FSSub (fs2 fs1 : FS) : Prop := ∀ e ∈ fs2, e ∈ fs1

theorem fssub_refl (fs : FS) : FSSub fs fs := fun _ he => he

theorem fssub_trans {fs3 fs2 fs1 : FS} (h32 : FSSub fs3 fs2)
    (h21 : FSSub fs2 fs1) : FSSub fs3 fs1 :=
  fun e he => h21 e (h32 e he)

theorem fsHas_iff {fs : FS} {q : CanonPath} :
    fsHas fs q = true ↔ ∃ k, (q, k) ∈ fs := by
  unfold fsHas fsKind
  cases hfind : List.find? (fun e => e.1 == q) fs with
  | none =>
    simp only [hfind, Option.map_none', Option.isSome_none, Bool.false_eq_true,
      false_iff, not_exists]
    intro k hmem
    have := List.find?_eq_none.mp hfind (q, k) hmem
    simp at this
  | some e =>
    simp only [hfind, Option.map_some', Option.isSome_some, true_iff]
    have hmem := List.mem_of_find?_eq_some hfind
    have hq := List.find?_some hfind
    simp only [beq_iff_eq] at hq
    refine ⟨e.2, ?_⟩
    have he : (q, e.2) = e := by rw [← hq]
    rw [he]
    exact hmem

theorem fsHas_false_iff {fs : FS} {q : CanonPath} :
    fsHas fs q = false ↔ ∀ k, (q, k) ∉ fs := by
  rw [← Bool.not_eq_true, fsHas_iff]
  push_neg
  rfl

theorem fsHas_false_mono {fs2 fs1 : FS} {q : CanonPath} (hsub : FSSub fs2 fs1)
    (h : fsHas fs1 q = false) : fsHas fs2 q = false := by
  rw [fsHas_false_iff] at h ⊢
  exact fun k hk => h k (hsub (q, k) hk)

theorem rmtree_sub (fs : FS) (p : CanonPath) (stuck : CanonPath → Bool) :
    FSSub (rmtree fs p stuck) fs :=
  fun _ he => (List.mem_filter.mp he).1

theorem fsErase_sub (fs : FS) (p : CanonPath) : FSSub (fsErase fs p) fs :=
  fun _ he => (List.mem_filter.mp he).1

theorem safe_rm_try_sub {fs : FS} {p : CanonPath} {verbose : Bool}
    {F : RmOracle} {fs2 : FS} {m : List Msg}
    (h : safe_rm_try fs p verbose F = Except.ok (fs2, m)) : FSSub fs2 fs := by
  unfold safe_rm_try at h
  split at h
  · injection h with h
    obtain rfl : rmtree fs p F.stuck = fs2 := congrArg Prod.fst h
    exact rmtree_sub fs p F.stuck
  · split at h
    · injection h with h
      obtain rfl : fsErase fs p = fs2 := congrArg Prod.fst h
      exact fsErase_sub fs p
    · injection h with h
      obtain rfl : rmtree fs p F.stuck = fs2 := congrArg Prod.fst h
      exact rmtree_sub fs p F.stuck
    · exact absurd h (by simp)

theorem safe_rm_sub (fs : FS) (p : CanonPath) (dry verbose : Bool)
    (F : RmOracle) : FSSub (safe_rm fs p dry verbose F).1 fs := by
  unfold safe_rm
  split
  · exact fssub_refl fs
  · split
    · exact fssub_refl fs
    · cases htry : safe_rm_try fs p verbose F with
      | ok pr =>
        obtain ⟨fs2, m⟩ := pr
        exact safe_rm_try_sub htry
      | error code =>
        exact fssub_refl fs

theorem rmSeq_sub (ps : List CanonPath) :
    ∀ (fs : FS) (dry verbose : Bool) (F : RmOracle),
      FSSub (rmSeq fs ps dry verbose F).fs fs := by
  induction ps with
  | nil => intro fs dry verbose F; exact fssub_refl fs
  | cons p rest ih =>
    intro fs dry verbose F
    rw [rmSeq]
    exact fssub_trans (ih _ dry verbose F) (safe_rm_sub fs p dry verbose F)

theorem glob_sub (pats : List Pattern) :
    ∀ (fs : FS) (base : CanonPath) (dry verbose : Bool) (F : RmOracle),
      FSSub (glob_and_remove fs base pats dry verbose F).fs fs := by
  induction pats with
  | nil => intro fs base dry verbose F; exact fssub_refl fs
  | cons pat rest ih =>
    intro fs base dry verbose F
    rw [glob_and_remove]
    exact fssub_trans (ih _ base dry verbose F) (rmSeq_sub _ fs dry verbose F)

/-- All keys of the filesystem are wellformed canonical paths. -/
def WfFS (fs : FS) : Prop := ∀ e ∈ fs, WfP e.1

instance (fs : FS) : Decidable (WfFS fs) := by unfold WfFS; infer_instance

theorem wf_sub {fs2 fs1 : FS} (hsub : FSSub fs2 fs1) (h : WfFS fs1) :
    WfFS fs2 := fun e he => h e (hsub e he)

/-! Dry-run mode touches nothing. -/

theorem safe_rm_dry (fs : FS) (p : CanonPath) (verbose : Bool) (F : RmOracle) :
    (safe_rm fs p true verbose F).1 = fs := by
  unfold safe_rm
  split
  · rfl
  · rfl

theorem rmSeq_dry (ps : List CanonPath) :
    ∀ (fs : FS) (verbose : Bool) (F : RmOracle),
      (rmSeq fs ps true verbose F).fs = fs := by
  induction ps with
  | nil => intro fs verbose F; rfl
  | cons p rest ih =>
    intro fs verbose F
    rw [rmSeq]
    dsimp only
    rw [ih, safe_rm_dry]

theorem glob_dry (pats : List Pattern) :
    ∀ (fs : FS) (base : CanonPath) (verbose : Bool) (F : RmOracle),
      (glob_and_remove fs base pats true verbose F).fs = fs := by
  induction pats with
  | nil => intro fs base verbose F; rfl
  | cons pat rest ih =>
    intro fs base verbose F
    rw [glob_and_remove]
    dsimp only
    rw [rmSeq_dry, ih]

theorem runCmd_dry (fs : FS) (c : Cmd) (verbose : Bool) (S : SpawnO) :
    (runCmd fs c true verbose S).1 = fs := rfl

theorem step12_dry (cfg : Config) (fs : FS) (S : SpawnO)
    (h : cfg.dry_run = true) : (step12 cfg fs S).fs = fs := by
  unfold step12
  rw [h]
  dsimp only
  repeat' split
  all_goals simp only [runCmd_dry]

theorem step3_dry (cfg : Config) (t : DirTree) (fs : FS) (F : RmOracle)
    (h : cfg.dry_run = true) : (step3 cfg t fs F).fs = fs := by
  unfold step3
  rw [h]
  exact rmSeq_dry _ fs cfg.verbose F

theorem step45_dry (cfg : Config) (fs : FS) (F : RmOracle)
    (h : cfg.dry_run = true) : (step45 cfg fs F).fs = fs := by
  unfold step45
  rw [h]
  dsimp only
  split
  · rfl
  · simp only [rmSeq_dry, glob_dry]
    split
    · rfl
    · rfl

theorem step6_dry (cfg : Config) (fs : FS) (F : RmOracle)
    (h : cfg.dry_run = true) : (step6 cfg fs F).fs = fs := by
  unfold step6
  rw [h]
  dsimp only
  split
  · split
    · dsimp only
      rw [safe_rm_dry]
    · rfl
  · rfl

/-! Benign-oracle removal: with no injected failures and dry-run off,
`safe_rm` eliminates every entry at the given path. -/

theorem safe_rm_removes (fs : FS) (p : CanonPath) (verbose : Bool)
    (F : RmOracle) (hstuck : ∀ q, F.stuck q = false)
    (hul : ∀ q, F.unlink q = none) :
    fsHas (safe_rm fs p false verbose F).1 p = false := by
  unfold safe_rm
  split
  · next hmiss =>
    rw [Bool.not_eq_true'] at hmiss
    exact hmiss
  · have hrmtree : fsHas (rmtree fs p F.stuck) p = false := by
      rw [fsHas_false_iff]
      intro k hk
      unfold rmtree at hk
      rw [List.mem_filter] at hk
      have hcond := hk.2
      rw [Bool.or_eq_true] at hcond
      rcases hcond with hcond | hcond
      · rw [Bool.not_eq_true'] at hcond
        have hrefl : List.isPrefixOf p (p, k).1 = true := by
          rw [List.isPrefixOf_iff_prefix]
        rw [hrefl] at hcond
        exact absurd hcond (by simp)
      · rw [List.any_eq_true] at hcond
        obtain ⟨e2, -, he2⟩ := hcond
        rw [Bool.and_eq_true] at he2
        rw [hstuck e2.1] at he2
        exact absurd he2.2 (by simp)
    rw [if_neg (by simp)]
    cases htry : safe_rm_try fs p verbose F with
    | ok pr =>
      obtain ⟨fs2, m⟩ := pr
      unfold safe_rm_try at htry
      split at htry
      · injection htry with htry
        obtain rfl : rmtree fs p F.stuck = fs2 := congrArg Prod.fst htry
        exact hrmtree
      · rw [hul p] at htry
        injection htry with htry
        obtain rfl : fsErase fs p = fs2 := congrArg Prod.fst htry
        rw [fsHas_false_iff]
        intro k hk
        unfold fsErase at hk
        rw [List.mem_filter] at hk
        simp at hk
    | error code =>
      unfold safe_rm_try at htry
      split at htry
      · exact absurd htry (by simp)
      · rw [hul p] at htry
        exact absurd htry (by simp)

theorem rmSeq_removes (ps : List CanonPath) :
    ∀ (fs : FS) (p : CanonPath) (verbose : Bool) (F : RmOracle),
      (∀ q, F.stuck q = false) → (∀ q, F.unlink q = none) → p ∈ ps →
      fsHas (rmSeq fs ps false verbose F).fs p = false := by
  induction ps with
  | nil =>
    intro fs p verbose F _ _ hmem
    exact absurd hmem (by simp)
  | cons q rest ih =>
    intro fs p verbose F hstuck hul hmem
    rw [rmSeq]
    dsimp only
    rcases List.mem_cons.mp hmem with rfl | hmem
    · exact fsHas_false_mono (rmSeq_sub rest _ false verbose F)
        (safe_rm_removes fs p verbose F hstuck hul)
    · exact ih _ p verbose F hstuck hul hmem

theorem glob_removes (pats : List Pattern) :
    ∀ (fs : FS) (base : CanonPath) (p : CanonPath) (pat : Pattern)
      (verbose : Bool) (F : RmOracle),
      (∀ q, F.stuck q = false) → (∀ q, F.unlink q = none) → pat ∈ pats →
      base.isPrefixOf p = true → matchPat pat (p.drop base.length) = true →
      fsHas (glob_and_remove fs base pats false verbose F).fs p = false := by
  induction pats with
  | nil =>
    intro fs base p pat verbose F _ _ hmem
    exact absurd hmem (by simp)
  | cons pat0 rest ih =>
    intro fs base p pat verbose F hstuck hul hmem hpre hmatch
    rw [glob_and_remove]
    dsimp only
    rcases List.mem_cons.mp hmem with rfl | hmem
    · cases hhas : fsHas fs p with
      | true =>
        obtain ⟨k, hk⟩ := fsHas_iff.mp hhas
        have hhit : p ∈ globMatches fs base pat := by
          unfold globMatches
          rw [List.mem_filterMap]
          exact ⟨(p, k), hk, by rw [hpre, hmatch]; rfl⟩
        exact fsHas_false_mono (glob_sub rest _ base false verbose F)
          (rmSeq_removes _ fs p verbose F hstuck hul hhit)
      | false =>
        exact fsHas_false_mono (glob_sub rest _ base false verbose F)
          (fsHas_false_mono (rmSeq_sub _ fs false verbose F) hhas)
    · exact ih _ base p pat verbose F hstuck hul hmem hpre hmatch

/-! Pattern facts. -/

theorem matchPat_length :
    ∀ (pat : Pattern) (l : List Name), matchPat pat l = true →
      l.length = pat.length := by
  intro pat
  induction pat with
  | nil =>
    intro l h
    cases l with
    | nil => rfl
    | cons n ns => exact absurd h (by simp [matchPat])
  | cons pc ps ih =>
    intro l h
    cases l with
    | nil => exact absurd h (by simp [matchPat])
    | cons n ns =>
      rw [matchPat, Bool.and_eq_true] at h
      simp only [List.length_cons, ih ns h.2]

theorem two_prefix_head {a b : Char} {as bs s : List Char}
    (ha : (a :: as) <+: s) (hb : (b :: bs) <+: s) : a = b := by
  cases s with
  | nil =>
    have := ha.length_le
    simp at this
  | cons c cs =>
    rw [List.cons_prefix_cons] at ha hb
    rw [ha.1, hb.1]

/-- Every path handed to `safe_rm` by `glob_and_remove` is an existing key of
the filesystem the call started from and matches one of the patterns at the
base. -/
theorem glob_hits_spec (pats : List Pattern) :
    ∀ (fs : FS) (base : CanonPath) (dry verbose : Bool) (F : RmOracle)
      (p : CanonPath),
      p ∈ (glob_and_remove fs base pats dry verbose F).hits →
      (∃ k, (p, k) ∈ fs) ∧ base.isPrefixOf p = true ∧
        ∃ pat ∈ pats, matchPat pat (p.drop base.length) = true := by
  induction pats with
  | nil =>
    intro fs base dry verbose F p hp
    exact absurd hp (by simp [glob_and_remove])
  | cons pat0 rest ih =>
    intro fs base dry verbose F p hp
    rw [glob_and_remove] at hp
    dsimp only at hp
    rcases List.mem_append.mp hp with hp | hp
    · unfold globMatches at hp
      rw [List.mem_filterMap] at hp
      obtain ⟨e, hmem, hif⟩ := hp
      by_cases hc : (base.isPrefixOf e.1 && matchPat pat0 (e.1.drop base.length)) = true
      · rw [if_pos hc, Option.some_inj] at hif
        subst hif
        rw [Bool.and_eq_true] at hc
        exact ⟨⟨e.2, by simpa using hmem⟩, hc.1,
          pat0, List.mem_cons_self _ _, hc.2⟩
      · rw [if_neg hc] at hif
        exact absurd hif (by simp)
    · obtain ⟨⟨k, hk⟩, hpre, pat, hpat, hmatch⟩ :=
        ih _ base dry verbose F p hp
      exact ⟨⟨k, rmSeq_sub _ fs dry verbose F (p, k) hk⟩, hpre,
        pat, List.mem_cons_of_mem _ hpat, hmatch⟩

/-- Every name produced by `dirChildren` is the last component of an
existing key one level below the base. -/
theorem dirChildren_spec {fs : FS} {base : CanonPath} {n : Name}
    (h : n ∈ dirChildren fs base) :
    ∃ e ∈ fs, e.1 = base ++ [n] := by
  unfold dirChildren at h
  rw [List.mem_filterMap] at h
  obtain ⟨e, hmem, hif⟩ := h
  refine ⟨e, hmem, ?_⟩
  rcases hdrop : e.1.drop base.length with _ | ⟨m, rest⟩ <;> rw [hdrop] at hif
  · exact absurd hif (by simp)
  · cases rest with
    | nil =>
      dsimp only at hif
      by_cases hc : (base.isPrefixOf e.1 && (e.2 == EKind.dir)) = true
      · rw [if_pos hc, Option.some_inj] at hif
        subst hif
        rw [Bool.and_eq_true, List.isPrefixOf_iff_prefix] at hc
        obtain ⟨t, ht⟩ := hc.1
        rw [← ht, List.drop_left] at hdrop
        rw [← ht, hdrop]
      · rw [if_neg hc] at hif
        exact absurd hif (by simp)
    | cons m2 rest2 => exact absurd hif (by simp)

/-- A wellformed home with a wellformed strict descendant: the guard
accepts every deeper wellformed extension. -/
theorem confirm_extend {home guh : CanonPath} (wh : WfP home) (wg : WfP guh)
    (hguard : confirm_under_home (some guh) (some home) = true)
    {suffix : CanonPath} (ws : ∀ n ∈ suffix, wfName n) :
    confirm_under_home (some (guh ++ suffix)) (some home) = true := by
  obtain ⟨hne, r, hr, rfl⟩ := (confirm_iff guh home wg wh).mp hguard
  refine (confirm_iff _ home ?_ wh).mpr ⟨hne, r ++ suffix, by simp [hr], by simp⟩
  intro n hn
  rcases List.mem_append.mp hn with hn | hn
  · exact wg n hn
  · exact ws n hn

/-! ### Shared concrete fixtures for witnesses and counterexamples -/

def homeW : CanonPath := [nm "home", nm "u"]
def guhW : CanonPath := homeW ++ [nm ".gradle"]

def fsW : FS :=
  [(guhW, EKind.dir),
   (guhW ++ [nm "caches"], EKind.dir),
   (guhW ++ [nm "caches", nm "modules-2"], EKind.dir),
   (guhW ++ [nm "caches", nm "modules-2", nm "kotlin"], EKind.dir),
   ([nm "tmp", nm "x"], EKind.dir),
   ([nm "tmp", nm "x", nm "gradle"], EKind.dir)]

def cfgW : Config :=
  { root := [nm "w"], home := homeW, gradlew := [nm "w", nm "gradlew"],
    gradleOnPath := false, gradle_user_home := guhW,
    xdg_cache_home := [nm "tmp", nm "x"], dry_run := false, aggressive := false,
    include_konan := false, verbose := false }

def spawnNone : SpawnO := fun _ _ => none

/-! ### Claims -/

/-- C2, counterexample: the clause "confirm_under_home(h/x, h) returns true
for any child x of h" fails when the home resolves to the filesystem root
`/`: the required string prefix is `//`, which no resolved path starts with,
so the guard rejects the child `/x` of `/`. -/
theorem claim2_counterexample :
    confirm_under_home (some (([] : CanonPath) ++ [nm "x"])) (some ([] : CanonPath)) = false := by
  decide

/-- C2, amended: for wellformed resolved paths, `confirm_under_home(h, h)` is
false; `confirm_under_home(h/x, h)` is true for any child `x` provided `h` is
not the filesystem root; `confirm_under_home(other, h)` is false when the
first components differ; and a resolution failure of either argument yields
false rather than an exception. -/
theorem claim2_amended (h p : CanonPath) (x : Name) (wh : WfP h) (wp : WfP p)
    (wx : wfName x) :
    confirm_under_home (some h) (some h) = false ∧
    (h ≠ [] → confirm_under_home (some (h ++ [x])) (some h) = true) ∧
    (∀ a as b bs, h = a :: as → p = b :: bs → a ≠ b →
      confirm_under_home (some p) (some h) = false) ∧
    confirm_under_home none (some h) = false ∧
    confirm_under_home (some p) none = false := by
  refine ⟨?_, ?_, ?_, rfl, rfl⟩
  · by_contra hcontra
    rw [Bool.not_eq_false] at hcontra
    obtain ⟨-, r, hr, hrr⟩ := (confirm_iff h h wh wh).mp hcontra
    have hlen := congrArg List.length hrr
    rw [List.length_append] at hlen
    exact hr (List.length_eq_zero.mp (by omega))
  · intro hne
    refine (confirm_iff _ h ?_ wh).mpr ⟨hne, [x], by simp, rfl⟩
    intro n hn
    rcases List.mem_append.mp hn with hn | hn
    · exact wh n hn
    · rw [List.mem_singleton] at hn
      exact hn ▸ wx
  · intro a as b bs hh hp2 hab
    by_contra hcontra
    rw [Bool.not_eq_false] at hcontra
    obtain ⟨-, r, -, hrr⟩ := (confirm_iff p h wp wh).mp hcontra
    subst hh
    subst hp2
    rw [List.cons_append] at hrr
    injection hrr with h1 htl
    exact hab h1.symm

/-- C2, witness for the amended claim at a concrete home and child. -/
theorem claim2_witness :
    confirm_under_home (some homeW) (some homeW) = false ∧
    confirm_under_home (some (homeW ++ [nm "x"])) (some homeW) = true :=
  ⟨(claim2_amended homeW [nm "tmp"] (nm "x") (by decide) (by decide) (by decide)).1,
   (claim2_amended homeW [nm "tmp"] (nm "x") (by decide) (by decide) (by decide)).2.1
     (by decide)⟩

/-- C3: with the dry-run flag set the whole run leaves the filesystem
untouched, and the dry-run primitives themselves never mutate it:
`safe_rm` only prints and `runCmd` never consults the spawner. -/
theorem claim3 (cfg : Config) (fs : FS) (t : DirTree) (F : RmOracle)
    (S : SpawnO) (hdry : cfg.dry_run = true) :
    (zap_main cfg fs t F S).fs = fs ∧
    (∀ p verbose, (safe_rm fs p true verbose F).1 = fs) ∧
    (∀ c verbose, (runCmd fs c true verbose S).1 = fs) := by
  refine ⟨?_, fun p verbose => safe_rm_dry fs p verbose F,
    fun c verbose => runCmd_dry fs c verbose S⟩
  unfold zap_main
  dsimp only
  rw [step6_dry _ _ _ hdry, step45_dry _ _ _ hdry, step3_dry _ _ _ _ hdry,
    step12_dry _ _ _ hdry]

/-- C3, witness: a concrete dry run changes nothing. -/
theorem claim3_witness :
    (zap_main { cfgW with dry_run := true } fsW (DirTree.node []) noFail
      spawnNone).fs = fsW :=
  (claim3 { cfgW with dry_run := true } fsW (DirTree.node []) noFail spawnNone
    rfl).1

/-- C5: `safe_rm`'s outcome is always one of removed, skipped-missing or
failed outside dry-run; a missing path yields skipped-missing with no output
and no mutation; a failed outcome arises only when `unlink` on the entry
itself raised a non-`IsADirectoryError` exception (the root could not be
removed, the filesystem is unchanged); and an exception escaping the `try:`
body is always converted into the failed outcome instead of propagating. -/
theorem claim5 (fs : FS) (p : CanonPath) (dry verbose : Bool) (F : RmOracle) :
    (dry = false →
      (safe_rm fs p dry verbose F).2.2 = Outcome.removed ∨
      (safe_rm fs p dry verbose F).2.2 = Outcome.skippedMissing ∨
      (safe_rm fs p dry verbose F).2.2 = Outcome.failed) ∧
    (fsHas fs p = false →
      (safe_rm fs p dry verbose F).2.2 = Outcome.skippedMissing ∧
      (safe_rm fs p dry verbose F).1 = fs ∧
      (safe_rm fs p dry verbose F).2.1 = []) ∧
    ((safe_rm fs p dry verbose F).2.2 = Outcome.failed →
      (∃ code, F.unlink p = some (UnlinkErr.other code)) ∧
      (safe_rm fs p dry verbose F).1 = fs) ∧
    (∀ code, safe_rm_try fs p verbose F = Except.error code →
      fsHas fs p = true → dry = false →
      (safe_rm fs p dry verbose F).2.2 = Outcome.failed) := by
  unfold safe_rm
  by_cases hhas : fsHas fs p = true
  · rw [if_neg (by simp [hhas])]
    by_cases hdry : dry = true
    · rw [if_pos hdry]
      exact ⟨fun hcontra => absurd (hdry ▸ hcontra) (by simp),
        fun hmiss => absurd hmiss (by simp [hhas]),
        fun hfail => absurd hfail (by simp),
        fun code _ _ hcontra => absurd (hdry ▸ hcontra) (by simp)⟩
    · rw [if_neg hdry]
      cases htry : safe_rm_try fs p verbose F with
      | ok pr =>
        obtain ⟨fs2, m⟩ := pr
        dsimp only
        exact ⟨fun _ => Or.inl rfl,
          fun hmiss => absurd hmiss (by simp [hhas]),
          fun hfail => absurd hfail (by simp),
          fun code hcode _ _ => absurd hcode (by simp)⟩
      | error code =>
        dsimp only
        have hulink : ∃ c, F.unlink p = some (UnlinkErr.other c) := by
          unfold safe_rm_try at htry
          split at htry
          · exact absurd htry (by simp)
          · split at htry
            · exact absurd htry (by simp)
            · exact absurd htry (by simp)
            · next c heq =>
              injection htry with hcc
              exact ⟨c, heq⟩
        exact ⟨fun _ => Or.inr (Or.inr rfl),
          fun hmiss => absurd hmiss (by simp [hhas]),
          fun _ => ⟨hulink, rfl⟩,
          fun _ _ _ _ => rfl⟩
  · have hmiss : fsHas fs p = false := by simpa using hhas
    rw [if_pos (by simp [hmiss])]
    exact ⟨fun _ => Or.inr (Or.inl rfl),
      fun _ => ⟨rfl, rfl, rfl⟩,
      fun hfail => absurd hfail (by simp),
      fun code _ hcontra => absurd hcontra (by simp [hmiss])⟩

/-- C5, witness: removing a missing path is a silent no-op. -/
theorem claim5_witness :
    (safe_rm [] [nm "x"] false false noFail).2.2 = Outcome.skippedMissing :=
  ((claim5 [] [nm "x"] false false noFail).2.1 (by decide)).1

/-- C6, counterexample: in dry-run mode `runCmd` returns 0, which is not a
sentinel distinct from a real exit status — a process that runs and succeeds
returns the same 0. -/
theorem claim6_counterexample :
    (runCmd [] Cmd.gradlewStop true false spawnNone).2.2 = 0 ∧
    (runCmd [] Cmd.gradlewStop false false (fun _ fs => some (fs, 0))).2.2 = 0 :=
  ⟨rfl, rfl⟩

/-- C6, amended: in dry-run mode `runCmd` prints the command and returns exit
code 0 (not a distinct sentinel) without consulting the spawner; otherwise it
returns the spawned process's exit status, and a failure to start the process
is caught and reported as the synthetic status 1 with the filesystem
untouched, rather than raising. -/
theorem claim6_amended (fs : FS) (c : Cmd) (dry verbose : Bool) (S : SpawnO) :
    (dry = true → runCmd fs c dry verbose S = (fs, [Msg.dryRunCmd c], 0)) ∧
    (dry = false → ∀ fs2 rc, S c fs = some (fs2, rc) →
      (runCmd fs c dry verbose S).1 = fs2 ∧
      (runCmd fs c dry verbose S).2.2 = rc) ∧
    (dry = false → S c fs = none →
      (runCmd fs c dry verbose S).1 = fs ∧
      (runCmd fs c dry verbose S).2.2 = 1) := by
  refine ⟨?_, ?_, ?_⟩
  · rintro rfl
    rfl
  · rintro rfl fs2 rc hS
    unfold runCmd
    rw [if_neg (by simp), hS]
    exact ⟨rfl, rfl⟩
  · rintro rfl hS
    unfold runCmd
    rw [if_neg (by simp), hS]
    exact ⟨rfl, rfl⟩

/-- C6, witness: a spawner that fails to start yields the synthetic status 1. -/
theorem claim6_witness :
    (runCmd [] Cmd.gradleStop false false spawnNone).2.2 = 1 :=
  ((claim6_amended [] Cmd.gradleStop false false spawnNone).2.2 rfl rfl).2

/-- C10: when the home directory resolves to the filesystem root `/`, the
required string prefix is `//`, so `confirm_under_home` rejects every
wellformed resolved path, and the user-level pruning tier (steps 4–5) is
always skipped: no deletion call is issued, the filesystem is untouched and
only the safety warning is printed. -/
theorem claim10 (cfg : Config) (fs : FS) (F : RmOracle) (p : CanonPath)
    (wp : WfP p) (wg : WfP cfg.gradle_user_home) (hhome : cfg.home = []) :
    confirm_under_home (some p) (some cfg.home) = false ∧
    (step45 cfg fs F).fs = fs ∧ (step45 cfg fs F).calls = [] ∧
    (step45 cfg fs F).msgs =
      [Msg.safetySkipUserTier cfg.gradle_user_home cfg.home] := by
  have hfalse : ∀ q, WfP q → confirm_under_home (some q) (some cfg.home) = false := by
    intro q wq
    rw [hhome]
    by_contra hc
    rw [Bool.not_eq_false] at hc
    obtain ⟨hne, -⟩ :=
      (confirm_iff q [] wq (fun n hn => absurd hn (List.not_mem_nil n))).mp hc
    exact hne rfl
  have hskip : step45 cfg fs F =
      ⟨fs, [Msg.safetySkipUserTier cfg.gradle_user_home cfg.home], []⟩ := by
    unfold step45
    dsimp only
    rw [hfalse cfg.gradle_user_home wg]
    rfl
  exact ⟨hfalse p wp, by rw [hskip], by rw [hskip], by rw [hskip]⟩

/-- C10, witness: with home `/`, the guard rejects a sample path and the
user tier of a concrete run issues no deletion. -/
theorem claim10_witness :
    confirm_under_home (some [nm "tmp"]) (some ([] : CanonPath)) = false ∧
    (step45 { cfgW with home := [] } fsW noFail).calls = [] :=
  ⟨(claim10 { cfgW with home := [] } fsW noFail [nm "tmp"] (by decide)
      (by decide) rfl).1,
   (claim10 { cfgW with home := [] } fsW noFail [nm "tmp"] (by decide)
      (by decide) rfl).2.2.1⟩

/-- The shape of every scanner result: the root followed by a pruned-free
chain of components and a final artifact name. -/
theorem find_shape {root : CanonPath} {t : DirTree} :
    ∀ p ∈ find_project_dirs_to_remove root t,
      ∃ q d, p = root ++ (q ++ [d]) ∧ d ∈ artifactNames ∧
        ∀ n ∈ q, n ∉ pruneNames := by
  intro p hp
  obtain ⟨cur, ch, n, c, hreach, hmem, hart, rfl⟩ := mem_find_project_dirs.mp hp
  obtain ⟨q, rfl, hq⟩ := reach_shape hreach
  exact ⟨q, n, by simp, hart, hq⟩

/-- C4: the scanner returns exactly the `build` / `.gradle` child directories
of directories reachable from the root without passing through a pruned
component, and every returned path has the root-relative form
`q ++ [d]` with `q` free of pruned names and `d` an artifact name (so no
result lies inside `.git` or any other pruned directory, and recorded
directories are never descended into). -/
theorem claim4 (root : CanonPath) (t : DirTree) :
    (∀ p, p ∈ find_project_dirs_to_remove root t ↔ IsTarget root t p) ∧
    (∀ p ∈ find_project_dirs_to_remove root t,
      ∃ q d, p = root ++ (q ++ [d]) ∧ d ∈ artifactNames ∧
        ∀ n ∈ q, n ∉ pruneNames) :=
  ⟨fun _ => mem_find_project_dirs, find_shape⟩

def treeW : DirTree :=
  DirTree.node
    [(nm "build", DirTree.node []),
     (nm "a", DirTree.node
       [(nm ".gradle", DirTree.node []),
        (nm ".git", DirTree.node [(nm "build", DirTree.node [])])])]

/-- C4, witness: a concrete tree's scanner output matches the characterized
shape. -/
theorem claim4_witness :
    ∃ q d, ([nm "r", nm "build"] : CanonPath) = [nm "r"] ++ (q ++ [d]) ∧
      d ∈ artifactNames ∧ ∀ n ∈ q, n ∉ pruneNames :=
  (claim4 [nm "r"] treeW).2 [nm "r", nm "build"] (by decide)

theorem artifact_mem_prune : ∀ n ∈ artifactNames, n ∈ pruneNames := by decide

/-- C9: the scanner never returns the traversal root itself (even if the
root is named `build` or `.gradle`), and no returned path is a strict prefix
of another returned path: recorded directories are pruned from descent, so
results form an antichain. -/
theorem claim9 (root : CanonPath) (t : DirTree) :
    root ∉ find_project_dirs_to_remove root t ∧
    ∀ p1 ∈ find_project_dirs_to_remove root t,
      ∀ p2 ∈ find_project_dirs_to_remove root t, p1 ≠ p2 → ¬(p1 <+: p2) := by
  constructor
  · intro hmem
    obtain ⟨q, d, heq, -, -⟩ := find_shape root hmem
    have hlen := congrArg List.length heq
    rw [List.length_append, List.length_append, List.length_singleton] at hlen
    omega
  · intro p1 h1 p2 h2 hne hpre
    obtain ⟨q1, d1, rfl, hart1, hq1⟩ := find_shape p1 h1
    obtain ⟨q2, d2, rfl, hart2, hq2⟩ := find_shape p2 h2
    rw [List.prefix_append_right_inj] at hpre
    rcases List.prefix_concat_iff.mp hpre with heq | hpre2
    · exact hne (by rw [heq])
    · have hd1 : d1 ∈ q2 := hpre2.subset (by simp)
      exact hq2 d1 hd1 (artifact_mem_prune d1 hart1)

/-- C9, witness: in a concrete tree with two results, neither is a prefix of
the other. -/
theorem claim9_witness :
    ¬(([nm "r", nm "build"] : CanonPath) <+: [nm "r", nm "a", nm ".gradle"]) :=
  (claim9 [nm "r"] treeW).2 [nm "r", nm "build"] (by decide)
    [nm "r", nm "a", nm ".gradle"] (by decide) (by decide)

/-! Step shape lemmas for the orchestrator claims. -/

theorem step12_calls (cfg : Config) (fs : FS) (S : SpawnO) :
    (step12 cfg fs S).calls = [] := by
  unfold step12
  dsimp only
  repeat' split
  all_goals rfl

theorem step3_calls (cfg : Config) (t : DirTree) (fs : FS) (F : RmOracle) :
    (step3 cfg t fs F).calls =
      (find_project_dirs_to_remove cfg.root t).map (fun p => (Step.s3, p)) :=
  rfl

theorem step6_tag (cfg : Config) (fs : FS) (F : RmOracle) :
    ∀ sp ∈ (step6 cfg fs F).calls,
      sp.1 = Step.s6 ∧ sp.2 = cfg.home ++ [nm ".konan"] ∧
        confirm_under_home (some sp.2) (some cfg.home) = true := by
  intro sp hsp
  unfold step6 at hsp
  dsimp only at hsp
  split at hsp
  · split at hsp
    · next hconf =>
      rw [List.mem_singleton] at hsp
      subst hsp
      exact ⟨rfl, rfl, hconf⟩
    · exact absurd hsp (by simp)
  · exact absurd hsp (by simp)

theorem step45_skip (cfg : Config) (fs : FS) (F : RmOracle)
    (hguard : confirm_under_home (some cfg.gradle_user_home) (some cfg.home) = false) :
    step45 cfg fs F =
      ⟨fs, [Msg.safetySkipUserTier cfg.gradle_user_home cfg.home], []⟩ := by
  unfold step45
  dsimp only
  rw [hguard]
  rfl

theorem filter_s3_map (l : List CanonPath) :
    (l.map (fun p => (Step.s3, p))).filter (fun sp => sp.1 == Step.s3) =
      l.map (fun p => (Step.s3, p)) := by
  rw [List.filter_map]
  have : ((fun sp : Step × CanonPath => sp.1 == Step.s3) ∘ fun p => (Step.s3, p)) =
      fun _ => true := by
    funext p
    rfl
  rw [this, List.filter_true]

/-- C7: with a user cache home rejected by the Safety Guard, the run prints
the warning naming the rejected directory and the home, every deletion call
issued belongs to the project-local step 3 or the separately-guarded step 6
(steps 4–5 issue none), and step 3 still removes exactly the scanner's
targets. -/
theorem claim7 (cfg : Config) (fs : FS) (t : DirTree) (F : RmOracle)
    (S : SpawnO)
    (hguard : confirm_under_home (some cfg.gradle_user_home) (some cfg.home) = false) :
    Msg.safetySkipUserTier cfg.gradle_user_home cfg.home ∈
      (zap_main cfg fs t F S).msgs ∧
    (∀ sp ∈ (zap_main cfg fs t F S).calls, sp.1 = Step.s3 ∨ sp.1 = Step.s6) ∧
    ((zap_main cfg fs t F S).calls.filter (fun sp => sp.1 == Step.s3) =
      (find_project_dirs_to_remove cfg.root t).map (fun p => (Step.s3, p))) := by
  unfold zap_main
  dsimp only
  rw [step45_skip _ _ _ hguard, step12_calls, step3_calls]
  refine ⟨by simp, ?_, ?_⟩
  · intro sp hsp
    simp only [List.nil_append, List.append_nil] at hsp
    rcases List.mem_append.mp hsp with hsp | hsp
    · obtain ⟨p, -, rfl⟩ := List.mem_map.mp hsp
      exact Or.inl rfl
    · exact Or.inr (step6_tag cfg _ F sp hsp).1
  · simp only [List.nil_append, List.append_nil, List.filter_append]
    rw [filter_s3_map]
    have h6 : ((step6 cfg
        (step3 cfg t (step12 cfg fs S).fs F).fs F).calls).filter
        (fun sp => sp.1 == Step.s3) = [] := by
      rw [List.filter_eq_nil_iff]
      intro sp hsp
      have := (step6_tag cfg _ F sp hsp).1
      rw [this]
      simp
    rw [h6, List.append_nil]

/-- C7, witness: a concrete run with a cache home outside the home directory
skips the user tier and still performs project-local removal. -/
theorem claim7_witness :
    (∀ sp ∈ (zap_main { cfgW with gradle_user_home := [nm "tmp", nm "g"] } fsW
        treeW noFail spawnNone).calls, sp.1 = Step.s3 ∨ sp.1 = Step.s6) ∧
    ((zap_main { cfgW with gradle_user_home := [nm "tmp", nm "g"] } fsW
        treeW noFail spawnNone).calls.filter (fun sp => sp.1 == Step.s3) =
      (find_project_dirs_to_remove [nm "w"] treeW).map (fun p => (Step.s3, p))) :=
  ⟨(claim7 { cfgW with gradle_user_home := [nm "tmp", nm "g"] } fsW treeW
      noFail spawnNone (by decide)).2.1,
   (claim7 { cfgW with gradle_user_home := [nm "tmp", nm "g"] } fsW treeW
      noFail spawnNone (by decide)).2.2⟩

/-! ### The aggressive tier (C8) -/

/-- A path targeted by the aggressive glob patterns rooted at the user cache
home: `caches/modules-2`, `caches/jars-*`, `caches/transforms-*`,
`wrapper/dists`. -/
def isAggTarget (guh p : CanonPath) : Bool :=
  aggPatterns.any (fun pat =>
    guh.isPrefixOf p && matchPat pat (p.drop guh.length))

theorem matchPat2_elim {pc1 pc2 : PatComp} {l : List Name}
    (h : matchPat [pc1, pc2] l = true) :
    ∃ t1 t2, l = [t1, t2] ∧ matchComp pc1 t1 = true ∧ matchComp pc2 t2 = true := by
  cases l with
  | nil => exact absurd h (by simp [matchPat])
  | cons t1 rest =>
    cases rest with
    | nil => exact absurd h (by simp [matchPat])
    | cons t2 rest2 =>
      cases rest2 with
      | nil =>
        rw [matchPat, Bool.and_eq_true, matchPat, Bool.and_eq_true] at h
        exact ⟨t1, t2, rfl, h.1, h.2.1⟩
      | cons t3 rest3 => exact absurd h (by simp [matchPat])

theorem matchPat1_elim {pc1 : PatComp} {l : List Name}
    (h : matchPat [pc1] l = true) :
    ∃ t1, l = [t1] ∧ matchComp pc1 t1 = true := by
  cases l with
  | nil => exact absurd h (by simp [matchPat])
  | cons t1 rest =>
    cases rest with
    | nil =>
      rw [matchPat, Bool.and_eq_true] at h
      exact ⟨t1, rfl, h.1⟩
    | cons t2 rest2 => exact absurd h (by simp [matchPat])

/-- Two prefixes of one list are comparable; if the boolean test refutes
both directions they cannot coexist. -/
theorem prefix_confl {a b s : List Char} (ha : a <+: s) (hb : b <+: s)
    (hab : a.isPrefixOf b = false) (hba : b.isPrefixOf a = false) : False := by
  rcases List.prefix_or_prefix_of_prefix ha hb with h | h
  · rw [← List.isPrefixOf_iff_prefix, hab] at h
    exact absurd h (by simp)
  · rw [← List.isPrefixOf_iff_prefix, hba] at h
    exact absurd h (by simp)

/-- Dissects an aggressive-target path: it is the user cache home followed by
exactly two components of one of the four shapes. -/
theorem aggTarget_elim {guh p : CanonPath} (h : isAggTarget guh p = true) :
    ∃ s1 s2, p = guh ++ [s1, s2] ∧
      ((s1 = nm "caches" ∧
        (s2 = nm "modules-2" ∨ (nm "jars-").isPrefixOf s2 = true ∨
          (nm "transforms-").isPrefixOf s2 = true)) ∨
       (s1 = nm "wrapper" ∧ s2 = nm "dists")) := by
  rw [isAggTarget, List.any_eq_true] at h
  obtain ⟨pat, hpat, hcond⟩ := h
  rw [Bool.and_eq_true] at hcond
  obtain ⟨hpre, hm⟩ := hcond
  rw [List.isPrefixOf_iff_prefix] at hpre
  obtain ⟨rest, rfl⟩ := hpre
  rw [List.drop_left] at hm
  simp only [aggPatterns, List.mem_cons, List.not_mem_nil, or_false] at hpat
  rcases hpat with rfl | rfl | rfl | rfl
  · obtain ⟨t1, t2, rfl, h1, h2⟩ := matchPat2_elim hm
    rw [matchComp, beq_iff_eq] at h1
    rw [matchComp, beq_iff_eq] at h2
    exact ⟨t1, t2, rfl, Or.inl ⟨h1.symm, Or.inl h2.symm⟩⟩
  · obtain ⟨t1, t2, rfl, h1, h2⟩ := matchPat2_elim hm
    rw [matchComp, beq_iff_eq] at h1
    rw [matchComp] at h2
    exact ⟨t1, t2, rfl, Or.inl ⟨h1.symm, Or.inr (Or.inl h2)⟩⟩
  · obtain ⟨t1, t2, rfl, h1, h2⟩ := matchPat2_elim hm
    rw [matchComp, beq_iff_eq] at h1
    rw [matchComp] at h2
    exact ⟨t1, t2, rfl, Or.inl ⟨h1.symm, Or.inr (Or.inr h2)⟩⟩
  · obtain ⟨t1, t2, rfl, h1, h2⟩ := matchPat2_elim hm
    rw [matchComp, beq_iff_eq] at h1
    rw [matchComp, beq_iff_eq] at h2
    exact ⟨t1, t2, rfl, Or.inr ⟨h1.symm, h2.symm⟩⟩

/-- A one-component extension of the cache home is never an aggressive
target. -/
theorem aggTarget_single (guh : CanonPath) (x : Name) :
    isAggTarget guh (guh ++ [x]) = false := by
  by_contra hc
  rw [Bool.not_eq_false] at hc
  obtain ⟨s1, s2, heq, -⟩ := aggTarget_elim hc
  have := List.append_cancel_left heq
  exact absurd this (by simp)

/-- A three-component extension of the cache home is never an aggressive
target. -/
theorem aggTarget_triple (guh : CanonPath) (x y z : Name) :
    isAggTarget guh (guh ++ [x, y, z]) = false := by
  by_contra hc
  rw [Bool.not_eq_false] at hc
  obtain ⟨s1, s2, heq, -⟩ := aggTarget_elim hc
  have := List.append_cancel_left heq
  exact absurd this (by simp)

theorem mem_of_mem_ite_nil {α : Type} {c : Prop} [Decidable c] {l : List α}
    {a : α} (h : a ∈ (if c then l else [])) : a ∈ l := by
  split at h
  · exact h
  · exact absurd h (by simp)

/-- A hit of the safe glob patterns is never an aggressive target. -/
theorem aggTarget_safe_hit {guh p : CanonPath}
    (hpre : List.isPrefixOf guh p = true) {pat : Pattern}
    (hpat : pat ∈ safePatterns)
    (hm : matchPat pat (p.drop guh.length) = true) :
    isAggTarget guh p = false := by
  rw [List.isPrefixOf_iff_prefix] at hpre
  obtain ⟨rest, rfl⟩ := hpre
  rw [List.drop_left] at hm
  by_contra hc
  rw [Bool.not_eq_false] at hc
  obtain ⟨s1, s2, heq, hshape⟩ := aggTarget_elim hc
  have hrest := List.append_cancel_left heq
  simp only [safePatterns, List.mem_cons, List.not_mem_nil, or_false] at hpat
  rcases hpat with rfl | rfl
  · obtain ⟨t1, t2, hr2, h1, h2⟩ := matchPat2_elim hm
    rw [hrest] at hr2
    injection hr2 with e1 hr3
    injection hr3 with e2 hr4
    subst e1
    subst e2
    rw [matchComp, beq_iff_eq] at h1
    rw [matchComp] at h2
    rw [List.isPrefixOf_iff_prefix] at h2
    rcases hshape with ⟨he1, hd⟩ | ⟨he1, he2⟩
    · rcases hd with hd | hd | hd
      · subst hd
        rw [← List.isPrefixOf_iff_prefix] at h2
        exact absurd h2 (by decide)
      · rw [List.isPrefixOf_iff_prefix] at hd
        exact prefix_confl hd h2 (by decide) (by decide)
      · rw [List.isPrefixOf_iff_prefix] at hd
        exact prefix_confl hd h2 (by decide) (by decide)
    · rw [he1] at h1
      exact absurd h1.symm (by decide)
  · obtain ⟨t1, hr2, h1⟩ := matchPat1_elim hm
    rw [hrest] at hr2
    exact absurd hr2 (by simp)

/-- The XDG gradle cache path is never an aggressive target under any cache
home: its last component is `gradle`, which matches none of the aggressive
patterns' second components. -/
theorem aggTarget_xdg (guh xdg : CanonPath) :
    isAggTarget guh (xdg ++ [nm "gradle"]) = false := by
  by_contra hc
  rw [Bool.not_eq_false] at hc
  obtain ⟨s1, s2, heq, hshape⟩ := aggTarget_elim hc
  have hlast : some (nm "gradle") = some s2 := by
    have h1 := congrArg List.getLast? heq
    rw [List.getLast?_concat] at h1
    have h2 : guh ++ [s1, s2] = (guh ++ [s1]) ++ [s2] := by simp
    rw [h2, List.getLast?_concat] at h1
    exact h1
  have hlast2 : nm "gradle" = s2 := Option.some_inj.mp hlast
  subst hlast2
  rcases hshape with ⟨-, hd⟩ | ⟨-, hd⟩
  · rcases hd with hd | hd | hd
    · exact absurd hd (by decide)
    · exact absurd hd (by decide)
    · exact absurd hd (by decide)
  · exact absurd hd (by decide)

/-- C8, counterexample: with `aggressive=false` the dependency-module cache
is not left untouched — the safe tier's kotlin-shard sweep removes
`caches/modules-2/kotlin` inside it. -/
theorem claim8_counterexample :
    cfgW.aggressive = false ∧
    fsHas fsW (guhW ++ [nm "caches", nm "modules-2", nm "kotlin"]) = true ∧
    fsHas (zap_main cfgW fsW (DirTree.node []) noFail spawnNone).fs
      (guhW ++ [nm "caches", nm "modules-2", nm "kotlin"]) = false := by
  refine ⟨rfl, by decide, by decide⟩

/-- C8, amended: with `aggressive=false` the user-level tier never hands an
aggressive-target path (`caches/modules-2`, `caches/jars-*`,
`caches/transforms-*`, `wrapper/dists` under the cache home) to the deletion
primitive, though the safe tier may still delete a `kotlin` subdirectory
nested inside those caches; with `aggressive=true`, a passing Safety Guard,
dry-run off and no filesystem failures, every aggressive-target path is
absent from the filesystem after the tier. -/
theorem claim8_amended (cfg : Config) (fs : FS) (F : RmOracle) :
    (cfg.aggressive = false →
      ∀ sp ∈ (step45 cfg fs F).calls,
        isAggTarget cfg.gradle_user_home sp.2 = false) ∧
    (cfg.aggressive = true → cfg.dry_run = false →
      confirm_under_home (some cfg.gradle_user_home) (some cfg.home) = true →
      (∀ q, F.stuck q = false) → (∀ q, F.unlink q = none) →
      ∀ p, isAggTarget cfg.gradle_user_home p = true →
      fsHas (step45 cfg fs F).fs p = false) := by
  constructor
  · intro hagg sp hsp
    by_cases hguard :
        confirm_under_home (some cfg.gradle_user_home) (some cfg.home) = true
    · unfold step45 at hsp
      dsimp only at hsp
      rw [hguard, if_neg (by simp), hagg, if_neg (by simp)] at hsp
      simp only [List.mem_append] at hsp
      rcases hsp with ((hsp | hsp) | hsp) | hsp
      · obtain ⟨p, hp, rfl⟩ := List.mem_map.mp hsp
        rcases List.mem_cons.mp hp with rfl | hp
        · exact aggTarget_single cfg.gradle_user_home (nm "daemon")
        · rw [List.mem_singleton] at hp
          subst hp
          exact aggTarget_single cfg.gradle_user_home (nm "notifications")
      · obtain ⟨p, hp, rfl⟩ := List.mem_map.mp hsp
        obtain ⟨-, hpre, pat, hpat, hm⟩ := glob_hits_spec safePatterns _
          cfg.gradle_user_home cfg.dry_run cfg.verbose F p hp
        exact aggTarget_safe_hit hpre hpat hm
      · obtain ⟨p, hp, rfl⟩ := List.mem_map.mp hsp
        obtain ⟨n, -, rfl⟩ := List.mem_map.mp (mem_of_mem_ite_nil hp)
        have hassoc : (cfg.gradle_user_home ++ [nm "caches"]) ++ [n, nm "kotlin"] =
            cfg.gradle_user_home ++ [nm "caches", n, nm "kotlin"] := by simp
        rw [hassoc]
        exact aggTarget_triple cfg.gradle_user_home (nm "caches") n (nm "kotlin")
      · obtain ⟨p, hp, rfl⟩ := List.mem_map.mp hsp
        have hp2 := mem_of_mem_ite_nil hp
        rw [List.mem_singleton] at hp2
        subst hp2
        exact aggTarget_xdg cfg.gradle_user_home cfg.xdg_cache_home
    · rw [step45_skip cfg fs F (by simpa using hguard)] at hsp
      exact absurd hsp (by simp)
  · intro hagg hdry hguard hstuck hul p htarget
    unfold step45
    dsimp only
    rw [hguard, if_neg (by simp), hagg, if_pos rfl, hdry]
    dsimp only
    rw [isAggTarget, List.any_eq_true] at htarget
    obtain ⟨pat, hpat, hcond⟩ := htarget
    rw [Bool.and_eq_true] at hcond
    exact glob_removes aggPatterns _ cfg.gradle_user_home p pat cfg.verbose F
      hstuck hul hpat hcond.1 hcond.2

/-- C8, witness: in a concrete aggressive run with passing guard the
`caches/modules-2` cache is removed, and in a non-aggressive run no call
targets it. -/
theorem claim8_witness :
    fsHas (step45 { cfgW with aggressive := true } fsW noFail).fs
      (guhW ++ [nm "caches", nm "modules-2"]) = false ∧
    ∀ sp ∈ (step45 cfgW fsW noFail).calls,
      isAggTarget guhW sp.2 = false :=
  ⟨(claim8_amended { cfgW with aggressive := true } fsW noFail).2 rfl rfl
      (by decide) (fun _ => rfl) (fun _ => rfl)
      (guhW ++ [nm "caches", nm "modules-2"]) (by decide),
   (claim8_amended cfgW fsW noFail).1 rfl⟩

/-! Wellformedness propagation for C1. -/

theorem runCmd_wf (fs : FS) (c : Cmd) (dry verbose : Bool) (S : SpawnO)
    (hw : WfFS fs)
    (Swf : ∀ c2 fs1, WfFS fs1 → ∀ out, S c2 fs1 = some out → WfFS out.1) :
    WfFS (runCmd fs c dry verbose S).1 := by
  unfold runCmd
  split
  · exact hw
  · cases hS : S c fs with
    | some out =>
      obtain ⟨fs2, rc⟩ := out
      exact Swf c fs hw (fs2, rc) hS
    | none => exact hw

theorem step12_wf (cfg : Config) (fs : FS) (S : SpawnO) (hw : WfFS fs)
    (Swf : ∀ c2 fs1, WfFS fs1 → ∀ out, S c2 fs1 = some out → WfFS out.1) :
    WfFS (step12 cfg fs S).fs := by
  unfold step12
  dsimp only
  split
  · have h1 : WfFS (runCmd fs Cmd.gradlewStop cfg.dry_run cfg.verbose S).1 :=
      runCmd_wf fs Cmd.gradlewStop cfg.dry_run cfg.verbose S hw Swf
    split
    · exact runCmd_wf _ Cmd.gradlewClean cfg.dry_run cfg.verbose S h1 Swf
    · exact h1
  · split
    · have h1 : WfFS (runCmd fs Cmd.gradleStop cfg.dry_run cfg.verbose S).1 :=
        runCmd_wf fs Cmd.gradleStop cfg.dry_run cfg.verbose S hw Swf
      split
      · exact runCmd_wf _ Cmd.gradlewClean cfg.dry_run cfg.verbose S h1 Swf
      · exact h1
    · exact hw

theorem step3_sub (cfg : Config) (t : DirTree) (fs : FS) (F : RmOracle) :
    FSSub (step3 cfg t fs F).fs fs :=
  rmSeq_sub _ fs cfg.dry_run cfg.verbose F

/-- Every glob hit extends the base by a nonempty wellformed suffix. -/
theorem hits_shape {fs0 fs1 : FS} (hsub : FSSub fs1 fs0) (hw : WfFS fs0)
    {guh : CanonPath} {pats : List Pattern}
    (hne : ∀ pat ∈ pats, pat ≠ ([] : Pattern))
    {dry verbose : Bool} {F : RmOracle} {p : CanonPath}
    (hp : p ∈ (glob_and_remove fs1 guh pats dry verbose F).hits) :
    ∃ suffix, suffix ≠ [] ∧ (∀ n ∈ suffix, wfName n) ∧ p = guh ++ suffix := by
  obtain ⟨⟨k, hk⟩, hpre, pat, hpat, hm⟩ :=
    glob_hits_spec pats fs1 guh dry verbose F p hp
  have hwp : WfP p := hw (p, k) (hsub (p, k) hk)
  rw [List.isPrefixOf_iff_prefix] at hpre
  obtain ⟨rest, rfl⟩ := hpre
  rw [List.drop_left] at hm
  have hlen := matchPat_length pat rest hm
  refine ⟨rest, ?_, ?_, rfl⟩
  · intro hnil
    subst hnil
    exact hne pat hpat (List.length_eq_zero.mp hlen.symm)
  · intro n hn
    exact hwp n (List.mem_append_right _ hn)

/-- Under a passing guard, every step 4–5 deletion call other than the XDG
one targets a strict wellformed extension of the user cache home. -/
theorem step45_calls_shape (cfg : Config) (fs : FS) (F : RmOracle)
    (hguard : confirm_under_home (some cfg.gradle_user_home) (some cfg.home) = true)
    (hw : WfFS fs) :
    ∀ sp ∈ (step45 cfg fs F).calls,
      sp.1 = Step.s4xdg ∨
      ∃ suffix, suffix ≠ [] ∧ (∀ n ∈ suffix, wfName n) ∧
        sp.2 = cfg.gradle_user_home ++ suffix := by
  intro sp hsp
  have hsafe_ne : ∀ pat ∈ safePatterns, pat ≠ ([] : Pattern) := by decide
  have hagg_ne : ∀ pat ∈ aggPatterns, pat ≠ ([] : Pattern) := by decide
  unfold step45 at hsp
  dsimp only at hsp
  rw [hguard, if_neg (by simp)] at hsp
  have hsubs : ∀ q, (Step.s4sub, q) = sp →
      q ∈ [cfg.gradle_user_home ++ [nm "daemon"],
        cfg.gradle_user_home ++ [nm "notifications"]] →
      ∃ suffix, suffix ≠ [] ∧ (∀ n ∈ suffix, wfName n) ∧
        sp.2 = cfg.gradle_user_home ++ suffix := by
    rintro q rfl hq
    rcases List.mem_cons.mp hq with rfl | hq
    · exact ⟨[nm "daemon"], by simp, by decide, rfl⟩
    · rw [List.mem_singleton] at hq
      subst hq
      exact ⟨[nm "notifications"], by simp, by decide, rfl⟩
  have hksh : ∀ (fs2 : FS), FSSub fs2 fs → ∀ n ∈ dirChildren fs2
      (cfg.gradle_user_home ++ [nm "caches"]),
      ∃ suffix, suffix ≠ [] ∧ (∀ m ∈ suffix, wfName m) ∧
        (cfg.gradle_user_home ++ [nm "caches"]) ++ [n, nm "kotlin"] =
          cfg.gradle_user_home ++ suffix := by
    intro fs2 hsub2 n hn
    obtain ⟨e, hemem, he⟩ := dirChildren_spec hn
    have hwe : WfP e.1 := hw e (hsub2 e hemem)
    have hwn : wfName n := by
      rw [he] at hwe
      exact hwe n (List.mem_append_right _ (List.mem_singleton.mpr rfl))
    refine ⟨[nm "caches", n, nm "kotlin"], by simp, ?_, by simp⟩
    intro m hm
    rcases List.mem_cons.mp hm with rfl | hm
    · decide
    · rcases List.mem_cons.mp hm with rfl | hm
      · exact hwn
      · rw [List.mem_singleton] at hm
        subst hm
        decide
  by_cases hagg : cfg.aggressive = true
  · rw [hagg, if_pos rfl] at hsp
    simp only [List.mem_append] at hsp
    rcases hsp with (((hsp | hsp) | hsp) | hsp) | hsp
    · obtain ⟨q, hq, heq⟩ := List.mem_map.mp hsp
      exact Or.inr (hsubs q heq hq)
    · obtain ⟨p, hp, rfl⟩ := List.mem_map.mp hsp
      exact Or.inr (hits_shape (rmSeq_sub _ fs cfg.dry_run cfg.verbose F) hw
        hsafe_ne hp)
    · obtain ⟨p, hp, rfl⟩ := List.mem_map.mp hsp
      obtain ⟨n, hn, rfl⟩ := List.mem_map.mp (mem_of_mem_ite_nil hp)
      exact Or.inr (hksh _ (fssub_trans
        (glob_sub safePatterns _ cfg.gradle_user_home cfg.dry_run cfg.verbose F)
        (rmSeq_sub _ fs cfg.dry_run cfg.verbose F)) n hn)
    · obtain ⟨p, hp, rfl⟩ := List.mem_map.mp hsp
      exact Or.inl rfl
    · obtain ⟨p, hp, rfl⟩ := List.mem_map.mp hsp
      refine Or.inr (hits_shape (fssub_trans (rmSeq_sub _ _ cfg.dry_run cfg.verbose F)
        (fssub_trans (rmSeq_sub _ _ cfg.dry_run cfg.verbose F)
          (fssub_trans
            (glob_sub safePatterns _ cfg.gradle_user_home cfg.dry_run cfg.verbose F)
            (rmSeq_sub _ fs cfg.dry_run cfg.verbose F)))) hw hagg_ne hp)
  · rw [if_neg hagg] at hsp
    simp only [List.mem_append] at hsp
    rcases hsp with ((hsp | hsp) | hsp) | hsp
    · obtain ⟨q, hq, heq⟩ := List.mem_map.mp hsp
      exact Or.inr (hsubs q heq hq)
    · obtain ⟨p, hp, rfl⟩ := List.mem_map.mp hsp
      exact Or.inr (hits_shape (rmSeq_sub _ fs cfg.dry_run cfg.verbose F) hw
        hsafe_ne hp)
    · obtain ⟨p, hp, rfl⟩ := List.mem_map.mp hsp
      obtain ⟨n, hn, rfl⟩ := List.mem_map.mp (mem_of_mem_ite_nil hp)
      exact Or.inr (hksh _ (fssub_trans
        (glob_sub safePatterns _ cfg.gradle_user_home cfg.dry_run cfg.verbose F)
        (rmSeq_sub _ fs cfg.dry_run cfg.verbose F)) n hn)
    · obtain ⟨p, hp, rfl⟩ := List.mem_map.mp hsp
      exact Or.inl rfl

/-- C1, counterexample: the XDG-style cache subdirectory removal in step 4 is
issued without any Safety Guard check on its own path: with
`XDG_CACHE_HOME=/tmp/x`, the run hands `/tmp/x/gradle` to `safe_rm` although
`confirm_under_home` rejects that path against the home directory. -/
theorem claim1_counterexample :
    (Step.s4xdg, ([nm "tmp", nm "x", nm "gradle"] : CanonPath)) ∈
      (zap_main cfgW fsW (DirTree.node []) noFail spawnNone).calls ∧
    confirm_under_home (some [nm "tmp", nm "x", nm "gradle"])
      (some cfgW.home) = false := by
  exact ⟨by decide, by decide⟩

/-- C1, amended: in every run over wellformed resolved paths, each `safe_rm`
call of steps 4–6 other than the XDG-style cache subdirectory removal is
issued with a path accepted by the Safety Guard against the home directory
(steps 4–5 run only under a passing guard on the user cache home and target
strict extensions of it; step 6 checks the guard itself); the XDG removal is
not covered by the guard. -/
theorem claim1_amended (cfg : Config) (fs : FS) (t : DirTree) (F : RmOracle)
    (S : SpawnO) (wh : WfP cfg.home) (wg : WfP cfg.gradle_user_home)
    (wfs : WfFS fs)
    (Swf : ∀ c2 fs1, WfFS fs1 → ∀ out, S c2 fs1 = some out → WfFS out.1) :
    ∀ sp ∈ (zap_main cfg fs t F S).calls, sp.1 ≠ Step.s3 → sp.1 ≠ Step.s4xdg →
      confirm_under_home (some sp.2) (some cfg.home) = true := by
  intro sp hsp hn3 hnx
  unfold zap_main at hsp
  dsimp only at hsp
  rw [step12_calls] at hsp
  simp only [List.nil_append] at hsp
  rcases List.mem_append.mp hsp with hsp | hsp
  · rcases List.mem_append.mp hsp with hsp | hsp
    · rw [step3_calls] at hsp
      obtain ⟨p, -, rfl⟩ := List.mem_map.mp hsp
      exact absurd rfl hn3
    · by_cases hguard :
          confirm_under_home (some cfg.gradle_user_home) (some cfg.home) = true
      · have hw3 : WfFS (step3 cfg t (step12 cfg fs S).fs F).fs :=
          wf_sub (step3_sub cfg t _ F) (step12_wf cfg fs S wfs Swf)
        rcases step45_calls_shape cfg _ F hguard hw3 sp hsp with
          htag | ⟨suffix, hne, hwsuf, heq⟩
        · exact absurd htag hnx
        · rw [heq]
          exact confirm_extend wh wg hguard hwsuf
      · rw [step45_skip cfg _ F (by simpa using hguard)] at hsp
        exact absurd hsp (by simp)
  · exact (step6_tag cfg _ F sp hsp).2.2

/-- C1, witness: in a concrete run, the step-4 removal of the daemon
registry passes the guard. -/
theorem claim1_witness :
    confirm_under_home (some (guhW ++ [nm "daemon"])) (some cfgW.home) = true :=
  claim1_amended cfgW fsW (DirTree.node []) noFail spawnNone (by decide)
    (by decide) (by decide)
    (fun c2 fs1 h out hout => absurd hout (by simp [spawnNone]))
    (Step.s4sub, guhW ++ [nm "daemon"]) (by decide) (by decide) (by decide)
